import Mathlib

set_option maxRecDepth 40000

/-!
Verification of the Knowledge Vault semantic retrieval subsystem of the
Genverse backend (chunking, per-user FAISS index management, retrieval).

Text is modelled as `List Char`, Python lists as Lean lists, floating point
scalars as `ℚ` (exact arithmetic), uuid identifiers as `String`/`Nat`.
Fallible Python operations (numpy/faiss exceptions) are modelled with
`Option`.  Recursive scanners carry an explicit fuel argument (initialised
to the input length) so that every definition is structurally recursive and
can be evaluated by kernel reduction on concrete inputs; a fuel-irrelevance
lemma recovers the natural recursion equations.
-/

namespace Genverse

/-! ### Python string primitives used by `AIService.semantic_chunk_text`
(src/app/services/ai_service.py, lines 2303-2354) -/

/-- Whitespace test agreeing with Python's `str.split()` / `str.strip()` and
the regex class `\s` on ASCII text: space, tab, newline, carriage return,
vertical tab, form feed.  (Unicode whitespace is out of scope.) -/
def pyIsSpace (c : Char) : Bool :=
  (c == ' ') || (c == '\t') || (c == '\n') || (c == '\r') ||
    (c == '\x0b') || (c == '\x0c')

/-- Python `str.strip()`: remove leading and trailing whitespace. -/
def pyStrip (l : List Char) : List Char :=
  ((l.dropWhile pyIsSpace).reverse.dropWhile pyIsSpace).reverse

/-- Fuel-driven worker for `pyWords` (Python `str.split()` with no
separator argument).  The fuel is an upper bound on the input length and
only serves to make the recursion structural. -/
def pyWordsF : Nat → List Char → List (List Char)
  | _, [] => []
  | 0, _ :: _ => []
  | fuel + 1, c :: cs =>
    if pyIsSpace c then pyWordsF fuel cs
    else ((c :: cs).takeWhile (fun d => !pyIsSpace d)) ::
      pyWordsF fuel ((c :: cs).dropWhile (fun d => !pyIsSpace d))

/-- Python `str.split()` with no separator: the maximal whitespace-free runs
of the string, in order; no empty words are produced. -/
def pyWords (l : List Char) : List (List Char) :=
  pyWordsF l.length l

/-- Head-of-list test used by the scanners: does the remaining input start
with a character satisfying `p`? -/
def headSat (p : Char → Bool) : List Char → Bool
  | [] => false
  | c :: _ => p c

/-- Fuel-driven worker for `collapseNL`,
Python `re.sub(r'\n{3,}', '\n\n', text)`: every maximal run of three or
more newlines is replaced by exactly two newlines. -/
def collapseNLF : Nat → List Char → List Char
  | _, [] => []
  | 0, l => l
  | fuel + 1, c :: cs =>
    if c == '\n' then
      let run := (c :: cs).takeWhile (fun d => d == '\n')
      let rest := (c :: cs).dropWhile (fun d => d == '\n')
      (if 3 ≤ run.length then ['\n', '\n'] else run) ++ collapseNLF fuel rest
    else c :: collapseNLF fuel cs

/-- Python `re.sub(r'\n{3,}', '\n\n', text)`. -/
def collapseNL (l : List Char) : List Char :=
  collapseNLF l.length l

/-- Fuel-driven worker for `splitParas`,
Python `re.split(r'\n{2,}', text)`: cut the string at every maximal run of
two or more consecutive newlines, consuming the run. -/
def splitParasF (fuel : Nat) (acc : List Char) (l : List Char) : List (List Char) :=
  match fuel, l with
  | _, [] => [acc.reverse]
  | 0, l => [acc.reverse ++ l]
  | fuel + 1, c :: cs =>
    if c == '\n' && headSat (fun d => d == '\n') cs then
      acc.reverse :: splitParasF fuel [] ((c :: cs).dropWhile (fun d => d == '\n'))
    else splitParasF fuel (c :: acc) cs

/-- Python `re.split(r'\n{2,}', text)`. -/
def splitParas (l : List Char) : List (List Char) :=
  splitParasF l.length [] l

/-- Sentence-boundary punctuation of the chunker's regex `[.!?]`. -/
def isSentP (c : Char) : Bool :=
  (c == '.') || (c == '!') || (c == '?')

/-- Fuel-driven worker for `splitSentences`,
Python `re.split(r'(?<=[.!?])\s+', para)`: cut after a `.`, `!` or `?`
that is directly followed by whitespace, consuming the (maximal) run of
whitespace; the punctuation character stays with the left segment. -/
def splitSentencesF (fuel : Nat) (acc : List Char) (l : List Char) : List (List Char) :=
  match fuel, l with
  | _, [] => [acc.reverse]
  | 0, l => [acc.reverse ++ l]
  | fuel + 1, c :: cs =>
    if isSentP c && headSat pyIsSpace cs then
      (c :: acc).reverse :: splitSentencesF fuel [] (cs.dropWhile pyIsSpace)
    else splitSentencesF fuel (c :: acc) cs

/-- Python `re.split(r'(?<=[.!?])\s+', para)`. -/
def splitSentences (l : List Char) : List (List Char) :=
  splitSentencesF l.length [] l

/-! ### The semantic chunker
`AIService.semantic_chunk_text(text, max_words=200, overlap_words=30)`,
src/app/services/ai_service.py lines 2303-2354. -/

/-- A word, as produced by `pyWords`. -/
abbrev Word := List Char

/-- Python `' '.join(words)`. -/
def joinWords : List Word → List Char
  | [] => []
  | [w] => w
  | w :: ws => w ++ ' ' :: joinWords ws

/-- Overlap computation of `_flush`: the Python expression
`current_words[-overlap_words:] if len(current_words) > overlap_words else
current_words[:]`.  Note the Python slicing quirk: for `overlap_words = 0`
the slice `[-0:]` is the whole list (`[0:]`), not the empty list, so a zero
overlap carries the entire flushed buffer into the next chunk. -/
def overlapSlice (O : Nat) (cur : List Word) : List Word :=
  if O < cur.length then (if O = 0 then cur else cur.drop (cur.length - O)) else cur

/-- One step of the accumulation loop of `semantic_chunk_text` on a single
piece `p` (the `split()` word list of one paragraph, or of one sentence of
an over-long paragraph).  The loop body is
`if current_count + len(words) > max_words: _flush()` followed by
`current_words.extend(words)`; `_flush` appends `' '.join(current_words)`
to `chunks` when the buffer is non-empty and re-seeds the buffer with the
overlap slice.  The state is `(chunks, current_words)`; `current_count`
always equals `len(current_words)` in the source and is not tracked
separately. -/
def chunkStep (M O : Nat) (st : List (List Char) × List Word) (p : List Word) :
    List (List Char) × List Word :=
  if M < st.2.length + p.length then
    ((if st.2 = [] then st.1 else st.1 ++ [joinWords st.2]), overlapSlice O st.2 ++ p)
  else (st.1, st.2 ++ p)

/-- Paragraph list of `semantic_chunk_text`:
`[p.strip() for p in re.split(r'\n{2,}', text) if p.strip()]` applied to the
stripped, newline-collapsed text. -/
def chunkParagraphs (t : List Char) : List (List Char) :=
  ((splitParas (collapseNL (pyStrip t))).map pyStrip).filter (fun p => !p.isEmpty)

/-- Lean model of `AIService.semantic_chunk_text` (ai_service.py 2303-2354):
normalise blank lines, split into paragraphs, split over-long paragraphs
into sentences, greedily accumulate words with overlap carry-over, flush
the final buffer, and fall back to `[text]` when no chunk was produced. -/
def semanticChunkText (t : List Char) (M O : Nat) : List (List Char) :=
  let t' := collapseNL (pyStrip t)
  let st := (chunkParagraphs t).foldl (fun st para =>
      let pw := pyWords para
      if M < pw.length then
        (splitSentences para).foldl (fun st' s => chunkStep M O st' (pyWords s)) st
      else chunkStep M O st pw)
    ([], [])
  let cks := if st.2 = [] then st.1 else st.1 ++ [joinWords st.2]
  if cks = [] then [t'] else cks

/-! ### FAISS vector index model
`FAISSService` (src/app/services/faiss_service.py).  Embedding scalars are
modelled as exact rationals.  `faiss.IndexFlatIP` over L2-normalised rows is
an exact inner-product index; since the unit-normalisation factor `1/‖v‖`
is irrational, the model stores the raw rows and compares candidates by
`simKey`, a strictly monotone rational transform of the cosine similarity,
which yields exactly the ranking faiss produces on the normalised data. -/

/-- Embedding vector (Python `list[float]`, modelled with exact rationals). -/
abbrev Vec := List ℚ

/-- Fixed index dimensionality (`EMBEDDING_DIM = 768` in faiss_service.py). -/
def EMBEDDING_DIM : Nat := 768

/-- Dot product of two vectors (`faiss` inner product). -/
def dot (q v : Vec) : ℚ :=
  (List.zipWith (fun a b => a * b) q v).sum

/-- Squared L2 norm of a vector. -/
def normSq (v : Vec) : ℚ :=
  (v.map (fun x => x * x)).sum

/-- Ranking key of a stored row `v` against a query `q`: the cosine
similarity `⟪q,v⟫/(‖q‖·‖v‖)` sent through the strictly monotone map
`x ↦ sign(x)·x²·‖q‖²`, which lands in `ℚ`:
`simKey q v = sign(⟪q,v⟫)·⟪q,v⟫²/‖v‖²`.  Comparing rows by `simKey` is
exactly comparing them by the inner product faiss computes on the
unit-normalised rows and query. -/
def simKey (q v : Vec) : ℚ :=
  if 0 ≤ dot q v then dot q v * dot q v / normSq v
  else -(dot q v * dot q v / normSq v)

/-- A flat inner-product faiss index: a dimensionality and the stored rows. -/
structure FaissIndex where
  d : Nat
  rows : List Vec
deriving DecidableEq

/-- Fresh empty `faiss.IndexFlatIP(d)`. -/
def IndexFlatIP (d : Nat) : FaissIndex := ⟨d, []⟩

/-- Number of stored rows (`index.ntotal`). -/
def FaissIndex.ntotal (i : FaissIndex) : Nat := i.rows.length

/-- Append rows (`index.add(mat)`), preserving insertion order. -/
def FaissIndex.addRows (i : FaissIndex) (vs : List Vec) : FaissIndex :=
  ⟨i.d, i.rows ++ vs⟩

/-- Row reconstruction (`index.reconstruct(n)`); flat indexes store their
rows verbatim. -/
def FaissIndex.reconstruct (i : FaissIndex) (n : Nat) : Vec :=
  i.rows.getD n []

/-- Top-`k` search of a flat inner-product index: all row positions, sorted
by descending similarity to the query (stable, so ties keep insertion
order), truncated to `k`. -/
def FaissIndex.search (i : FaissIndex) (q : Vec) (k : Nat) : List Nat :=
  ((List.range i.ntotal).insertionSort
    (fun a b => simKey q (i.rows.getD b []) ≤ simKey q (i.rows.getD a []))).take k

/-- On-disk state of a `FAISSService` storage root: per user id, either no
index or the pair (index file, id-mapping file).  `_save` always writes the
two files together and nothing deletes them separately, so the pair is one
optional entry; `user_has_index` checks file existence. -/
abbrev ServiceState := String → Option (FaissIndex × List String)

/-- Storage root with no index files. -/
def emptyServiceState : ServiceState := fun _ => none

/-- Model of `FAISSService._load`: read the pair, or produce a fresh empty
index and empty mapping when the files do not exist. -/
def loadIndex (s : ServiceState) (u : String) : FaissIndex × List String :=
  (s u).getD (IndexFlatIP EMBEDDING_DIM, [])

/-- Model of `FAISSService._save`: persist index and mapping together. -/
def saveIndex (s : ServiceState) (u : String) (idx : FaissIndex)
    (mapping : List String) : ServiceState :=
  fun v => if v = u then some (idx, mapping) else s v

/-- Model of `FAISSService.add_batch` (faiss_service.py 75-90).
Faithfulness notes: the source performs NO length comparison between
`chunk_ids` and `embeddings`; `np.array`/`index.add` raise when the matrix
is ragged or its width is not the index dimensionality (modelled as `none`:
the exception propagates before `_save`, so nothing is persisted);
`faiss.normalize_L2` rescales rows in place, which the model absorbs into
the `simKey` comparison at search time. -/
def addBatch (s : ServiceState) (u : String) (chunkIds : List String)
    (embeddings : List Vec) : Option ServiceState :=
  if chunkIds = [] ∨ embeddings = [] then some s
  else if embeddings.all (fun v => v.length = EMBEDDING_DIM) then
    let li := loadIndex s u
    some (saveIndex s u (li.1.addRows embeddings) (li.2 ++ chunkIds))
  else none

/-- Model of `FAISSService.search` (faiss_service.py 92-114): empty index or
empty mapping short-circuits to `[]`; otherwise `k` is clamped to `ntotal`,
the index is searched, and row positions are sent through the mapping,
skipping out-of-range positions (`0 <= i < len(mapping)`).  A query of the
wrong dimensionality makes `index.search` raise, modelled as `none`; the
short-circuit happens before that check, as in the source. -/
def searchIndex (s : ServiceState) (u : String) (q : Vec) (k : Nat) :
    Option (List String) :=
  let li := loadIndex s u
  if li.1.ntotal = 0 ∨ li.2 = [] then some []
  else if q.length = EMBEDDING_DIM then
    some ((li.1.search q (min k li.1.ntotal)).filterMap (fun i => li.2[i]?))
  else none

/-- Model of `FAISSService.remove_chunks` (faiss_service.py 116-150):
rebuild-on-remove.  No-ops (without rewriting) when the mapping is empty or
nothing matches; persists a fresh empty pair when everything is removed;
otherwise reconstructs all rows, keeps the surviving ones in order, and
persists the rebuilt pair.  `np.vstack(...)[keep]` raises when a kept
position is out of range of the reconstructed rows (only possible when the
index/mapping lockstep is already broken), modelled as `none`. -/
def removeChunks (s : ServiceState) (u : String) (chunkIds : List String) :
    Option ServiceState :=
  let li := loadIndex s u
  let index := li.1
  let mapping := li.2
  if mapping = [] then some s
  else
    let keep := (mapping.enum.filter (fun ic => ic.2 ∉ chunkIds)).map Prod.fst
    if keep.length = mapping.length then some s
    else if keep = [] then some (saveIndex s u (IndexFlatIP EMBEDDING_DIM) [])
    else
      let allVecs := (List.range index.ntotal).map index.reconstruct
      if keep.all (fun i => i < allVecs.length) then
        some (saveIndex s u
          ((IndexFlatIP EMBEDDING_DIM).addRows (keep.map (fun i => allVecs.getD i [])))
          (keep.map (fun i => mapping.getD i "")))
      else none

/-- Model of `FAISSService.user_has_index` (faiss_service.py 152-154). -/
def userHasIndex (s : ServiceState) (u : String) : Bool :=
  (s u).isSome

/-- One public mutating call on a user's index. -/
inductive VaultOp where
  | add (chunkIds : List String) (embeddings : List Vec)
  | remove (chunkIds : List String)

/-- Apply one call; `none` when the call raises. -/
def applyVaultOp (u : String) (s : ServiceState) : VaultOp → Option ServiceState
  | .add cids embs => addBatch s u cids embs
  | .remove cids => removeChunks s u cids

/-- Run a call sequence; `none` as soon as one call raises. -/
def runVaultOps (u : String) (s : ServiceState) : List VaultOp → Option ServiceState
  | [] => some s
  | op :: ops => (applyVaultOp u s op).bind (fun s' => runVaultOps u s' ops)

/-- A call is well formed when an `add` passes equally long id and vector
lists (the programming contract of spec §4.3). -/
def VaultOp.wellFormed : VaultOp → Prop
  | .add cids embs => cids.length = embs.length
  | .remove _ => True

/-- The index/mapping lockstep invariant of spec §3 over a storage root:
whatever is persisted for any user satisfies
`len(mapping) == number_of_rows(index)`. -/
def lockstep (s : ServiceState) : Prop :=
  ∀ v idx mp, s v = some (idx, mp) → mp.length = idx.ntotal

/-- Concrete 768-dimensional vector used in the concrete scenarios. -/
def unitVec0 : Vec := 1 :: List.replicate 767 0

/-! ### Retrieval orchestration
`query_vault` (src/app/routers/library.py 329-393).  The relational store is
modelled as the joined view of `doc_chunks` with `user_library_items`: each
row carries its chunk id, owning library item, that item's owner, and the
chunk position; the table list is in ingestion order. -/

/-- One row of the joined chunk view. -/
structure DocChunk where
  id : String
  libraryItemId : String
  ownerId : String
  chunkOrder : Nat
deriving DecidableEq

/-- Row filter of the hydration query (library.py 358-367): chunk id among
the ranked ids, item owned by the user, and, when a file filter was sent,
item among the allowed files.  A present filter (`some fs`) models a
truthy `payload.file_ids`, which in Python is a non-empty list; an absent
or empty `file_ids` is `none`. -/
def hydrationPred (rankedIds : List String) (u : String)
    (fileIds : Option (List String)) (c : DocChunk) : Bool :=
  decide (c.id ∈ rankedIds) && (c.ownerId == u) &&
    (match fileIds with
     | none => true
     | some fs => decide (c.libraryItemId ∈ fs))

/-- Python dict construction `{str(c.id): c for c in rows}` plus lookup:
later rows with the same key overwrite earlier ones. -/
def dictById (rows : List DocChunk) (cid : String) : Option DocChunk :=
  rows.foldl (fun acc c => if c.id = cid then some c else acc) none

/-- Hydration step of `query_vault` (library.py 369-374):
`[db_chunks_by_id[cid] for cid in ranked_ids if cid in db_chunks_by_id]`—
ranked ids looked up in the dict, misses skipped, rank order kept. -/
def hydrate (rankedIds : List String) (rows : List DocChunk) : List DocChunk :=
  rankedIds.filterMap (dictById rows)

/-- Row filter of the fallback query (library.py 377-388): owner's chunks,
optionally restricted to the allowed library items (`some fs` models a
truthy, hence non-empty, `payload.file_ids`). -/
def fallbackPred (u : String) (fileIds : Option (List String)) (c : DocChunk) : Bool :=
  (c.ownerId == u) &&
    (match fileIds with
     | none => true
     | some fs => decide (c.libraryItemId ∈ fs))

/-- Fallback retrieval of `query_vault` (library.py 376-393): the matching
rows ordered by `chunk_order` ascending (`ORDER BY` modelled as a stable
sort), limited to 20. -/
def fallbackQuery (table : List DocChunk) (u : String)
    (fileIds : Option (List String)) : List DocChunk :=
  ((table.filter (fallbackPred u fileIds)).insertionSort
    (fun a b => a.chunkOrder ≤ b.chunkOrder)).take 20

/-- Modelled from the spec (§4.4 step 3), for comparison with
`fallbackQuery`: "fall back to a recency-based retrieval: the most recently
ingested chunks belonging to the owner (optionally filtered to
`allowed_document_ids`), up to a bounded count, ordered by ingestion
order."  The table is in ingestion order, so this keeps the last 20
matching rows in table order. -/
def fallbackRecency (table : List DocChunk) (u : String)
    (fileIds : Option (List String)) : List DocChunk :=
  let matching := table.filter (fallbackPred u fileIds)
  matching.drop (matching.length - 20)

/-- Chunk-selection logic of `query_vault` (library.py 343-393): when a
query embedding was produced and the user has an index, search it (k = 15)
and hydrate the ranked ids through the record store (the store may hand the
matching rows back in any order; `hydrate` is order-insensitive, see
`hydrate_perm_invariant`); whenever that path yields no chunks, fall back
to `fallbackQuery`.  `none` models an exception escaping from the faiss
search. -/
def queryVaultChunks (emb : Option Vec) (s : ServiceState) (u : String)
    (table : List DocChunk) (fileIds : Option (List String)) :
    Option (List DocChunk) :=
  match emb, userHasIndex s u with
  | some q, true =>
    (searchIndex s u q 15).map (fun rankedIds =>
      let cks := if rankedIds = [] then []
        else hydrate rankedIds (table.filter (hydrationPred rankedIds u fileIds))
      if cks = [] then fallbackQuery table u fileIds else cks)
  | _, _ => some (fallbackQuery table u fileIds)

/-! ### Word-level companions of the chunker, used to state and prove the
chunk-coverage and chunk-bound properties. -/

/-- Number of words `_flush` carries over into the next buffer when the
flushed buffer held `n` words: all of them when `overlap_words = 0` (the
`[-0:]` slice quirk) and `min overlap_words n` otherwise. -/
def seedLen (O n : Nat) : Nat :=
  if O = 0 then n else min O n

/-- Word-level mirror of `chunkStep`: the chunk list keeps word lists
instead of their `' '.join`. -/
def chunkStepW (M O : Nat) (st : List (List Word) × List Word) (p : List Word) :
    List (List Word) × List Word :=
  if M < st.2.length + p.length then
    ((if st.2 = [] then st.1 else st.1 ++ [st.2]), overlapSlice O st.2 ++ p)
  else (st.1, st.2 ++ p)

/-- The pieces fed to the accumulation loop, in order: for each paragraph,
its word list when it fits in `max_words`, and otherwise the word list of
each of its sentences. -/
def chunkPieces (t : List Char) (M : Nat) : List (List Word) :=
  (chunkParagraphs t).flatMap (fun para =>
    if M < (pyWords para).length then (splitSentences para).map pyWords
    else [pyWords para])

/-- Largest word count of a single piece. -/
def maxPieceLen (t : List Char) (M : Nat) : Nat :=
  ((chunkPieces t M).map List.length).foldr max 0

/-- Drop, from every chunk after the first, the words carried over from
the previous flush (`prev` is the chunk the overlap was taken from). -/
def dropSeedsAux (O : Nat) (prev : List Word) : List (List Word) → List (List Word)
  | [] => []
  | ck :: cks => ck.drop (seedLen O prev.length) :: dropSeedsAux O ck cks

/-- Word lists of the produced chunks with each chunk's leading overlap
(the words carried over from the previous flush) removed; the first chunk
is kept whole. -/
def dropSeedsW (O : Nat) : List (List Word) → List (List Word)
  | [] => []
  | ck :: cks => ck :: dropSeedsAux O ck cks

/-- A well-formed word: non-empty and whitespace-free, as produced by
`pyWords`. -/
def wfWord (w : Word) : Prop :=
  w ≠ [] ∧ ∀ c ∈ w, pyIsSpace c = false

/-- Words reconstructible from an accumulation state: the deduplicated
words of the flushed chunks followed by the not-yet-flushed new words of
the buffer (the buffer starts with the seed carried from the last flushed
chunk; for an empty chunk list this is just the buffer). -/
def reconW (O : Nat) (cs : List (List Word)) (cur : List Word) : List Word :=
  (dropSeedsW O cs).flatten ++ cur.drop (seedLen O (cs.getLastD []).length)

/-- Word-level value of the chunker's accumulation loop: the flushed chunks
(as word lists) plus the final flush of a non-empty buffer. -/
def chunksW (t : List Char) (M O : Nat) : List (List Word) :=
  let st := (chunkPieces t M).foldl (chunkStepW M O) ([], [])
  if st.2 = [] then st.1 else st.1 ++ [st.2]

/-- Concrete joined chunk view used in concrete scenarios: one library item
`"A"` of user `"u"` holding 21 chunks in ingestion order, chunk ids
`"0"`..`"20"`, chunk_order `0`..`20`. -/
def table21 : List DocChunk :=
  (List.range 21).map (fun i => ⟨Nat.repr i, "A", "u", i⟩)

/-! ## Theorems -/

/-! ### Index/mapping lockstep (claims C1, C2) -/

theorem lockstep_emptyServiceState : lockstep emptyServiceState := by
  intro v idx mp h
  simp [emptyServiceState] at h

theorem lockstep_saveIndex {s : ServiceState} {u : String} {idx : FaissIndex}
    {mp : List String} (hs : lockstep s) (h : mp.length = idx.ntotal) :
    lockstep (saveIndex s u idx mp) := by
  intro v i m hv
  by_cases hvu : v = u
  · subst hvu
    have hv' : some (idx, mp) = some (i, m) := by
      rw [← hv]
      simp [saveIndex]
    have hp := Option.some.inj hv'
    rw [Prod.ext_iff] at hp
    have h1 : idx = i := hp.1
    have h2 : mp = m := hp.2
    rw [← h1, ← h2]
    exact h
  · have hv' : s v = some (i, m) := by
      rw [← hv]
      simp [saveIndex, hvu]
    exact hs v i m hv'

theorem loadIndex_lockstep {s : ServiceState} (hs : lockstep s) (u : String) :
    (loadIndex s u).2.length = (loadIndex s u).1.ntotal := by
  unfold loadIndex
  cases h : s u with
  | none => rfl
  | some p => exact hs u p.1 p.2 (by rw [h])

theorem addBatch_lockstep {s : ServiceState} {u : String} {cids : List String}
    {embs : List Vec} {s' : ServiceState} (hs : lockstep s)
    (hlen : cids.length = embs.length)
    (h : addBatch s u cids embs = some s') : lockstep s' := by
  unfold addBatch at h
  split at h
  · exact Option.some.inj h ▸ hs
  · split at h
    · rw [← Option.some.inj h]
      refine lockstep_saveIndex hs ?_
      have hl := loadIndex_lockstep hs u
      simp only [FaissIndex.ntotal, FaissIndex.addRows, List.length_append] at hl ⊢
      omega
    · exact absurd h (by simp)

theorem removeChunks_lockstep {s : ServiceState} {u : String}
    {cids : List String} {s' : ServiceState} (hs : lockstep s)
    (h : removeChunks s u cids = some s') : lockstep s' := by
  simp only [removeChunks] at h
  split at h
  · exact Option.some.inj h ▸ hs
  · split at h
    · exact Option.some.inj h ▸ hs
    · split at h
      · rw [← Option.some.inj h]
        exact lockstep_saveIndex hs rfl
      · split at h
        · rw [← Option.some.inj h]
          refine lockstep_saveIndex hs ?_
          simp [FaissIndex.ntotal, FaissIndex.addRows, IndexFlatIP]
        · exact absurd h (by simp)

theorem runVaultOps_lockstep {u : String} {ops : List VaultOp} :
    ∀ {s s' : ServiceState}, lockstep s → (∀ op ∈ ops, op.wellFormed) →
      runVaultOps u s ops = some s' → lockstep s' := by
  induction ops with
  | nil =>
    intro s s' hs _ h
    exact Option.some.inj h ▸ hs
  | cons op ops ih =>
    intro s s' hs hops h
    simp only [runVaultOps, Option.bind_eq_some] at h
    obtain ⟨s₁, h₁, h₂⟩ := h
    have hs₁ : lockstep s₁ := by
      cases op with
      | add cids embs =>
        exact addBatch_lockstep hs (hops _ (List.mem_cons_self _ _)) h₁
      | remove cids => exact removeChunks_lockstep hs h₁
    exact ih hs₁ (fun o ho => hops o (List.mem_cons_of_mem _ ho)) h₂

/-- Claim C1 (amended): after every successful sequence of `add_batch` /
`remove_chunks` calls starting from the absent state, in which each
`add_batch` call passes equally long `chunk_ids` and `vectors` lists, the
persisted id-mapping list and the index body stay in lockstep for every
user: `len(mapping) == number_of_rows(index)`.  (The un-amended claim,
quantifying over all argument lists, fails: see
`vault_lockstep_counterexample`.) -/
theorem vault_lockstep_invariant (u : String) (ops : List VaultOp)
    (hops : ∀ op ∈ ops, op.wellFormed) (s' : ServiceState)
    (h : runVaultOps u emptyServiceState ops = some s') : lockstep s' :=
  runVaultOps_lockstep lockstep_emptyServiceState hops h

/-- Witness for `vault_lockstep_invariant` at a concrete call sequence:
one well-formed add of a single vector followed by removal of its id. -/
theorem vault_lockstep_invariant_witness :
    (∀ op ∈ ([VaultOp.add ["c1"] [unitVec0], VaultOp.remove ["c1"]] : List VaultOp),
      op.wellFormed) ∧
    lockstep (saveIndex
      (saveIndex emptyServiceState "u" ((IndexFlatIP EMBEDDING_DIM).addRows [unitVec0]) ["c1"])
      "u" (IndexFlatIP EMBEDDING_DIM) []) := by
  have hwf : ∀ op ∈ ([VaultOp.add ["c1"] [unitVec0],
      VaultOp.remove ["c1"]] : List VaultOp), op.wellFormed := by
    intro op hop
    fin_cases hop
    · rfl
    · trivial
  exact ⟨hwf, vault_lockstep_invariant "u"
    [VaultOp.add ["c1"] [unitVec0], VaultOp.remove ["c1"]] hwf _ rfl⟩

/-- Counterexample to claim C1 as stated: the single call
`add_batch("u", ["c1"], [v, v])` (two valid 768-dimensional vectors, one
id) raises no error and persists a state whose mapping has 1 entry while
the index has 2 rows. -/
theorem vault_lockstep_counterexample :
    (runVaultOps "u" emptyServiceState [VaultOp.add ["c1"] [unitVec0, unitVec0]]).bind
        (fun s => (s "u").map (fun p => (p.2.length, p.1.ntotal))) = some (1, 2) ∧
      (1 : Nat) ≠ 2 := by
  exact ⟨rfl, by decide⟩

/-- Claim C2 (code bug): `add_batch` with non-empty arguments of mismatched
lengths does NOT fail loudly — the source has no length comparison — and
instead persists 2 index rows against 1 mapping id.  This theorem
evaluates the model at the failing input `add_batch("u", ["c1"], [v, v])`:
the call succeeds (`isSome`) and the persisted lengths disagree, violating
the fail-fast contract of spec §7 and the row `i` ↔ `mapping[i]`
correspondence promised by the module docstring of faiss_service.py. -/
theorem addBatch_mismatch_persists_silently :
    (addBatch emptyServiceState "u" ["c1"] [unitVec0, unitVec0]).isSome = true ∧
      (addBatch emptyServiceState "u" ["c1"] [unitVec0, unitVec0]).bind
        (fun s => (s "u").map (fun p => (p.2.length, p.1.ntotal))) = some (1, 2) := by
  exact ⟨rfl, rfl⟩

/-! ### Full removal yields an empty, still-present index (claim C6) -/

/-- Claim C6 (amended): for an owner whose index exists on disk, removing a
set that covers every currently mapped id leaves a valid persisted EMPTY
index: `remove_chunks` succeeds, a subsequent `search` returns `[]` for
every query and every `k`, and `user_has_index` still reports an existing
index.  (As stated the claim also covers an owner for which nothing was
ever added, where it fails: see `remove_all_absent_counterexample`.) -/
theorem remove_all_yields_empty_index (s : ServiceState) (u : String)
    (ids : List String) (idx : FaissIndex) (mp : List String)
    (hu : s u = some (idx, mp)) (hcov : ∀ cid ∈ mp, cid ∈ ids) :
    ∃ s', removeChunks s u ids = some s' ∧ userHasIndex s' u = true ∧
      ∀ q k, searchIndex s' u q k = some [] := by
  have hload : loadIndex s u = (idx, mp) := by simp [loadIndex, hu]
  by_cases hmp : mp = []
  · refine ⟨s, ?_, ?_, ?_⟩
    · simp [removeChunks, hload, hmp]
    · simp [userHasIndex, hu]
    · intro q k
      simp [searchIndex, hload, hmp]
  · have hkeep : (mp.enum.filter (fun ic => ic.2 ∉ ids)).map Prod.fst = [] := by
      have hfil : mp.enum.filter (fun ic => ic.2 ∉ ids) = [] := by
        apply List.filter_eq_nil_iff.mpr
        intro ic hic
        have hmem : ic.2 ∈ mp := by
          have h2 := List.mem_enum_iff_getElem?.mp hic
          obtain ⟨hlt, hget⟩ := List.getElem?_eq_some_iff.mp h2
          exact hget ▸ List.getElem_mem hlt
        simp [hcov ic.2 hmem]
      rw [hfil, List.map_nil]
    have h0 : ¬((0 : Nat) = mp.length) := by
      intro h0
      exact hmp (List.length_eq_zero.mp h0.symm)
    refine ⟨saveIndex s u (IndexFlatIP EMBEDDING_DIM) [], ?_, ?_, ?_⟩
    · simp only [removeChunks, hload]
      rw [if_neg hmp, hkeep]
      rw [List.length_nil, if_neg h0]
      rw [if_pos rfl]
    · simp [userHasIndex, saveIndex]
    · intro q k
      have hload' : loadIndex (saveIndex s u (IndexFlatIP EMBEDDING_DIM) []) u
          = (IndexFlatIP EMBEDDING_DIM, []) := by
        simp [loadIndex, saveIndex]
      simp only [searchIndex, hload']
      simp

/-- Witness for `remove_all_yields_empty_index`: an owner holding one
vector mapped to id `"c1"`, removing `{"c1"}`. -/
theorem remove_all_yields_empty_index_witness :
    (saveIndex emptyServiceState "u"
        ((IndexFlatIP EMBEDDING_DIM).addRows [unitVec0]) ["c1"]) "u"
      = some ((IndexFlatIP EMBEDDING_DIM).addRows [unitVec0], ["c1"]) ∧
    ∃ s', removeChunks
        (saveIndex emptyServiceState "u"
          ((IndexFlatIP EMBEDDING_DIM).addRows [unitVec0]) ["c1"]) "u" ["c1"]
        = some s' ∧ userHasIndex s' "u" = true ∧
      ∀ q k, searchIndex s' "u" q k = some [] :=
  ⟨rfl, remove_all_yields_empty_index _ "u" ["c1"] _ ["c1"] rfl
    (by intro cid h; exact h)⟩

/-- Counterexample to claim C6 as stated: for an owner for which nothing
was ever added, the empty removal set covers "all ids ever added", yet
after `remove_chunks` the owner still has NO index on disk —
`user_has_index` reports absence, not an existing empty index (the source
returns before `_save` when the mapping is empty). -/
theorem remove_all_absent_counterexample :
    removeChunks emptyServiceState "u" [] = some emptyServiceState ∧
      userHasIndex emptyServiceState "u" = false :=
  ⟨rfl, rfl⟩

/-! ### Search contract (claim C7) -/

theorem pairwise_sortDescQ {α : Type} (key : α → ℚ) (l : List α) :
    List.Pairwise (fun a b => key b ≤ key a)
      (l.insertionSort (fun a b => key b ≤ key a)) := by
  haveI : IsTotal α (fun a b => key b ≤ key a) :=
    ⟨fun a b => le_total (key b) (key a)⟩
  haveI : IsTrans α (fun a b => key b ≤ key a) :=
    ⟨fun a b c hab hbc => le_trans hbc hab⟩
  exact List.sorted_insertionSort _ l

theorem pairwise_sortAscNat {α : Type} (key : α → Nat) (l : List α) :
    List.Pairwise (fun a b => key a ≤ key b)
      (l.insertionSort (fun a b => key a ≤ key b)) := by
  haveI : IsTotal α (fun a b => key a ≤ key b) :=
    ⟨fun a b => le_total (key a) (key b)⟩
  haveI : IsTrans α (fun a b => key a ≤ key b) :=
    ⟨fun a b c hab hbc => le_trans hab hbc⟩
  exact List.sorted_insertionSort _ l

/-- Claim C7: `search` on an owner with no index or an empty index returns
`[]` without error for every query and every `k`, and otherwise clamps `k`
to the number of stored rows, returns at most that many ids, and ranks the
searched row positions in descending similarity order (`simKey` is the
exact rational image of the cosine similarity faiss computes on the
normalised data), sending them through the id mapping. -/
theorem search_contract (s : ServiceState) (u : String) (q : Vec) (k : Nat) :
    ((loadIndex s u).1.ntotal = 0 ∨ (loadIndex s u).2 = [] →
        searchIndex s u q k = some [])
    ∧ (∀ ids, searchIndex s u q k = some ids →
        ids.length ≤ min k (loadIndex s u).1.ntotal)
    ∧ List.Pairwise (fun a b =>
        simKey q ((loadIndex s u).1.rows.getD b []) ≤
          simKey q ((loadIndex s u).1.rows.getD a []))
        ((loadIndex s u).1.search q (min k (loadIndex s u).1.ntotal))
    ∧ (¬((loadIndex s u).1.ntotal = 0 ∨ (loadIndex s u).2 = []) →
        q.length = EMBEDDING_DIM →
        searchIndex s u q k =
          some (((loadIndex s u).1.search q (min k (loadIndex s u).1.ntotal)).filterMap
            (fun i => (loadIndex s u).2[i]?))) := by
  refine ⟨?_, ?_, ?_, ?_⟩
  · intro h
    simp only [searchIndex]
    rw [if_pos h]
  · intro ids h
    simp only [searchIndex] at h
    split at h
    · rw [← Option.some.inj h]
      exact Nat.zero_le _
    · split at h
      · rw [← Option.some.inj h]
        have h1 := List.length_filterMap_le (fun i => (loadIndex s u).2[i]?)
          ((loadIndex s u).1.search q (min k (loadIndex s u).1.ntotal))
        have h2 : ((loadIndex s u).1.search q
            (min k (loadIndex s u).1.ntotal)).length ≤
              min k (loadIndex s u).1.ntotal := by
          simp only [FaissIndex.search]
          rw [List.length_take]
          exact min_le_left _ _
        exact le_trans h1 h2
      · exact absurd h (by simp)
  · simp only [FaissIndex.search]
    exact List.Pairwise.sublist (List.take_sublist _ _)
      (pairwise_sortDescQ (fun n => simKey q ((loadIndex s u).1.rows.getD n []))
        (List.range (loadIndex s u).1.ntotal))
  · intro h hq
    simp only [searchIndex]
    rw [if_neg h, if_pos hq]

/-- Witness for `search_contract`, realising the spec's concrete scenario:
`search` for owner `"U2"` before any ingestion returns `[]` without error,
for an arbitrary concrete query and `k = 5`. -/
theorem search_contract_witness :
    searchIndex emptyServiceState "U2" unitVec0 5 = some [] :=
  (search_contract emptyServiceState "U2" unitVec0 5).1 (Or.inr rfl)

/-! ### Hydration preserves rank order (claim C3) -/

theorem dictById_append (rows : List DocChunk) (c : DocChunk) (cid : String) :
    dictById (rows ++ [c]) cid =
      if c.id = cid then some c else dictById rows cid := by
  simp [dictById, List.foldl_append]

theorem dictById_none_iff (rows : List DocChunk) (cid : String) :
    dictById rows cid = none ↔ cid ∉ rows.map DocChunk.id := by
  induction rows using List.reverseRecOn with
  | nil => simp [dictById]
  | append_singleton rows c ih =>
    rw [dictById_append]
    by_cases hc : c.id = cid
    · simp [hc]
    · simp [hc, ih, Ne.symm hc]

theorem dictById_some (rows : List DocChunk) (cid : String) (c : DocChunk)
    (h : dictById rows cid = some c) : c ∈ rows ∧ c.id = cid := by
  induction rows using List.reverseRecOn with
  | nil => simp [dictById] at h
  | append_singleton rows d ih =>
    rw [dictById_append] at h
    by_cases hd : d.id = cid
    · rw [if_pos hd] at h
      have := Option.some.inj h
      subst this
      exact ⟨List.mem_append_right _ (List.mem_singleton_self _), hd⟩
    · rw [if_neg hd] at h
      obtain ⟨h1, h2⟩ := ih h
      exact ⟨List.mem_append_left _ h1, h2⟩

theorem dictById_of_mem {rows : List DocChunk} {c : DocChunk}
    (hnd : (rows.map DocChunk.id).Nodup) (hc : c ∈ rows) :
    dictById rows c.id = some c := by
  induction rows using List.reverseRecOn with
  | nil => simp at hc
  | append_singleton rows d ih =>
    rw [List.map_append, List.map_singleton, List.nodup_append] at hnd
    obtain ⟨hnd1, _, hdisj⟩ := hnd
    rw [dictById_append]
    rcases List.mem_append.mp hc with hc' | hc'
    · have hne : ¬(d.id = c.id) := by
        intro he
        exact hdisj (he ▸ List.mem_map_of_mem DocChunk.id hc')
          (List.mem_singleton_self _)
      rw [if_neg hne]
      exact ih hnd1 hc'
    · have he : c = d := List.mem_singleton.mp hc'
      subst he
      rw [if_pos rfl]

/-- Order-insensitivity of the hydration dict: two row lists that are
permutations of each other (and carry no duplicate ids) hydrate every
ranked id list identically. -/
theorem hydrate_perm_invariant (rankedIds : List String)
    {rows rows' : List DocChunk} (hnd : (rows.map DocChunk.id).Nodup)
    (hperm : rows.Perm rows') :
    hydrate rankedIds rows = hydrate rankedIds rows' := by
  have hnd' : (rows'.map DocChunk.id).Nodup := hnd.perm (hperm.map DocChunk.id)
  apply List.filterMap_congr
  intro cid _
  cases h : dictById rows cid with
  | none =>
    rw [eq_comm, dictById_none_iff]
    intro hmem
    exact (dictById_none_iff rows cid).mp h
      (((hperm.map DocChunk.id).mem_iff).mpr hmem)
  | some c =>
    obtain ⟨hc, hcid⟩ := dictById_some _ _ _ h
    subst hcid
    exact (dictById_of_mem hnd' (hperm.mem_iff.mp hc)).symm

theorem hydrate_map_id (rankedIds : List String) (rows : List DocChunk) :
    (hydrate rankedIds rows).map DocChunk.id =
      rankedIds.filter (fun cid => decide (cid ∈ rows.map DocChunk.id)) := by
  induction rankedIds with
  | nil => rfl
  | cons cid rest ih =>
    simp only [hydrate, List.filterMap_cons] at ih ⊢
    cases h : dictById rows cid with
    | none =>
      have hn := (dictById_none_iff rows cid).mp h
      rw [List.filter_cons_of_neg (by simpa using hn)]
      exact ih
    | some c =>
      obtain ⟨hc, hcid⟩ := dictById_some _ _ _ h
      have hm : cid ∈ rows.map DocChunk.id :=
        hcid ▸ List.mem_map_of_mem DocChunk.id hc
      rw [List.filter_cons_of_pos (by simpa using hm), List.map_cons, hcid, ih]

/-- Claim C3: the hydration step of `query_vault` returns the hydrated
chunk records in exactly the ranked order produced by the FAISS search,
regardless of the order in which the record store hands back the matching
rows (`rows` is any permutation of the filtered table, ids being unique);
ranked ids whose record fails the ownership/allowed-file filter (or does
not exist) are dropped without disturbing the relative order of the
rest — the hydrated id sequence is exactly `ranked_ids` filtered to the
surviving ids. -/
theorem query_vault_rank_preservation (rankedIds : List String) (u : String)
    (fileIds : Option (List String)) (table rows : List DocChunk)
    (hnd : ((table.filter (hydrationPred rankedIds u fileIds)).map DocChunk.id).Nodup)
    (hperm : rows.Perm (table.filter (hydrationPred rankedIds u fileIds))) :
    hydrate rankedIds rows =
      hydrate rankedIds (table.filter (hydrationPred rankedIds u fileIds))
    ∧ (hydrate rankedIds rows).map DocChunk.id =
        rankedIds.filter (fun cid =>
          decide (cid ∈ (table.filter (hydrationPred rankedIds u fileIds)).map
            DocChunk.id)) := by
  have hndrows : (rows.map DocChunk.id).Nodup :=
    hnd.perm ((hperm.map DocChunk.id)).symm
  have he := hydrate_perm_invariant rankedIds hndrows hperm
  exact ⟨he, by rw [he, hydrate_map_id]⟩

/-- Witness for `query_vault_rank_preservation`: ranked ids
`["2", "1", "9"]` against a store whose natural order is reversed; id
`"9"` has no row and id `"3"` belongs to another owner. -/
theorem query_vault_rank_preservation_witness :
    ((([⟨"1", "A", "u", 0⟩, ⟨"2", "A", "u", 1⟩, ⟨"3", "B", "v", 0⟩] :
        List DocChunk).filter
          (hydrationPred ["2", "1", "9"] "u" none)).map DocChunk.id).Nodup ∧
    ([⟨"2", "A", "u", 1⟩, ⟨"1", "A", "u", 0⟩] : List DocChunk).Perm
      (([⟨"1", "A", "u", 0⟩, ⟨"2", "A", "u", 1⟩, ⟨"3", "B", "v", 0⟩] :
        List DocChunk).filter (hydrationPred ["2", "1", "9"] "u" none)) ∧
    (hydrate ["2", "1", "9"] [⟨"2", "A", "u", 1⟩, ⟨"1", "A", "u", 0⟩] =
      hydrate ["2", "1", "9"]
        (([⟨"1", "A", "u", 0⟩, ⟨"2", "A", "u", 1⟩, ⟨"3", "B", "v", 0⟩] :
          List DocChunk).filter (hydrationPred ["2", "1", "9"] "u" none))
    ∧ (hydrate ["2", "1", "9"]
        [⟨"2", "A", "u", 1⟩, ⟨"1", "A", "u", 0⟩]).map DocChunk.id =
        ["2", "1", "9"].filter (fun cid =>
          decide (cid ∈ (([⟨"1", "A", "u", 0⟩, ⟨"2", "A", "u", 1⟩,
            ⟨"3", "B", "v", 0⟩] : List DocChunk).filter
              (hydrationPred ["2", "1", "9"] "u" none)).map DocChunk.id))) :=
  ⟨by decide, by decide,
    query_vault_rank_preservation ["2", "1", "9"] "u" none _ _
      (by decide) (by decide)⟩

/-! ### Recency fallback (claim C8) -/

/-- Counterexample to claim C8 as stated: with 21 chunks of one document in
the vault, the fallback path of `query_vault` returns the 20 rows with the
LOWEST `chunk_order` (ids "0".."19"), not the 20 most recently ingested
chunks, which are ids "1".."20" in ingestion order: the query is
`ORDER BY chunk_order LIMIT 20`, not a recency-based retrieval. -/
theorem fallback_not_recency_counterexample :
    queryVaultChunks none emptyServiceState "u" table21 none
        = some (fallbackQuery table21 "u" none)
    ∧ (fallbackQuery table21 "u" none).map DocChunk.id
        = (List.range 20).map Nat.repr
    ∧ (fallbackRecency table21 "u" none).map DocChunk.id
        = (List.range 20).map (fun i => Nat.repr (i + 1))
    ∧ (fallbackQuery table21 "u" none).map DocChunk.id ≠
        (fallbackRecency table21 "u" none).map DocChunk.id :=
  ⟨rfl, by decide, by decide, by decide⟩

/-- Claim C8 (amended): whenever the vector-search path of `query_vault`
yields no usable result (no query embedding, no index on disk, or an empty
hydration), the fallback path runs and returns rows of the owner's chunks
(restricted to the allowed files when a filter is given), at most 20 of
them, ordered by `chunk_order` ascending — the per-document chunk
position, NOT recency of ingestion. -/
theorem fallback_order_by_chunk_order (table : List DocChunk) (u : String)
    (fileIds : Option (List String)) :
    (fallbackQuery table u fileIds).length ≤ 20
    ∧ (∀ c ∈ fallbackQuery table u fileIds, fallbackPred u fileIds c = true)
    ∧ List.Pairwise (fun a b => a.chunkOrder ≤ b.chunkOrder)
        (fallbackQuery table u fileIds)
    ∧ (∀ emb s, emb = none ∨ userHasIndex s u = false →
        queryVaultChunks emb s u table fileIds
          = some (fallbackQuery table u fileIds))
    ∧ (∀ q s rankedIds, userHasIndex s u = true →
        searchIndex s u q 15 = some rankedIds →
        hydrate rankedIds (table.filter (hydrationPred rankedIds u fileIds)) = [] →
        queryVaultChunks (some q) s u table fileIds
          = some (fallbackQuery table u fileIds)) := by
  refine ⟨?_, ?_, ?_, ?_, ?_⟩
  · simp only [fallbackQuery]
    exact List.length_take_le _ _
  · intro c hc
    have h1 : c ∈ (table.filter (fallbackPred u fileIds)).insertionSort
        (fun a b => a.chunkOrder ≤ b.chunkOrder) := List.take_subset _ _ hc
    have h2 : c ∈ table.filter (fallbackPred u fileIds) :=
      (List.perm_insertionSort _ _).subset h1
    exact List.of_mem_filter h2
  · simp only [fallbackQuery]
    exact List.Pairwise.sublist (List.take_sublist _ _)
      (pairwise_sortAscNat DocChunk.chunkOrder _)
  · intro emb s h
    rcases h with rfl | h
    · rfl
    · cases emb with
      | none => rfl
      | some q => simp only [queryVaultChunks, h]
  · intro q s rankedIds hidx hsearch hhyd
    simp only [queryVaultChunks, hidx, hsearch, Option.map_some]
    by_cases hr : rankedIds = []
    · simp [hr]
    · simp [hr, hhyd]

/-- Witness for `fallback_order_by_chunk_order`: the fallback branch taken
with no query embedding over an empty storage root. -/
theorem fallback_order_by_chunk_order_witness :
    queryVaultChunks none emptyServiceState "w" table21 none
      = some (fallbackQuery table21 "w" none) :=
  (fallback_order_by_chunk_order table21 "w" none).2.2.2.1 none
    emptyServiceState (Or.inl rfl)

/-! ### Word-splitting lemmas (claims C4, C5, C9, C10) -/

theorem length_dropWhile_le (p : Char → Bool) (l : List Char) :
    (l.dropWhile p).length ≤ l.length :=
  (List.dropWhile_suffix p).sublist.length_le

theorem pyWordsF_irrel (f₁ : Nat) :
    ∀ (l : List Char) (f₂ : Nat), l.length ≤ f₁ → l.length ≤ f₂ →
      pyWordsF f₁ l = pyWordsF f₂ l := by
  induction f₁ with
  | zero =>
    intro l f₂ h1 _
    have : l = [] := List.length_eq_zero.mp (Nat.le_zero.mp h1)
    subst this
    cases f₂ <;> rfl
  | succ f ih =>
    intro l f₂ h1 h2
    cases l with
    | nil => cases f₂ <;> rfl
    | cons c cs =>
      cases f₂ with
      | zero => exact absurd h2 (by simp)
      | succ g =>
        simp only [pyWordsF]
        have hcs : cs.length ≤ f := Nat.succ_le_succ_iff.mp h1
        have hcs2 : cs.length ≤ g := Nat.succ_le_succ_iff.mp h2
        by_cases hc : pyIsSpace c
        · rw [if_pos hc, if_pos hc]
          exact ih cs g hcs hcs2
        · rw [if_neg hc, if_neg hc]
          congr 1
          have hdl : ((c :: cs).dropWhile (fun d => !pyIsSpace d)).length ≤ cs.length := by
            rw [List.dropWhile_cons_of_pos (by simp [hc])]
            exact length_dropWhile_le _ _
          exact ih _ g (le_trans hdl hcs) (le_trans hdl hcs2)

theorem pyWords_cons (c : Char) (cs : List Char) :
    pyWords (c :: cs) =
      if pyIsSpace c then pyWords cs
      else ((c :: cs).takeWhile (fun d => !pyIsSpace d)) ::
        pyWords ((c :: cs).dropWhile (fun d => !pyIsSpace d)) := by
  show pyWordsF (cs.length + 1) (c :: cs) = _
  simp only [pyWordsF]
  by_cases hc : pyIsSpace c
  · rw [if_pos hc, if_pos hc]
    rfl
  · rw [if_neg hc, if_neg hc]
    congr 1
    apply pyWordsF_irrel
    · rw [List.dropWhile_cons_of_pos (by simp [hc])]
      exact length_dropWhile_le _ _
    · exact le_rfl

theorem pyWords_nil : pyWords [] = [] := rfl

theorem pyWords_all_space {l : List Char} (h : ∀ c ∈ l, pyIsSpace c = true) :
    pyWords l = [] := by
  induction l with
  | nil => rfl
  | cons c cs ih =>
    rw [pyWords_cons, if_pos (h c (List.mem_cons_self _ _))]
    exact ih (fun d hd => h d (List.mem_cons_of_mem _ hd))

theorem pyWords_append_space (n : Nat) :
    ∀ (a : List Char), a.length ≤ n → ∀ (c : Char) (b : List Char),
      pyIsSpace c = true → pyWords (a ++ c :: b) = pyWords a ++ pyWords b := by
  induction n with
  | zero =>
    intro a ha c b hc
    have : a = [] := List.length_eq_zero.mp (Nat.le_zero.mp ha)
    subst this
    rw [List.nil_append, pyWords_nil, List.nil_append, pyWords_cons, if_pos hc]
  | succ n ih =>
    intro a ha c b hc
    cases a with
    | nil => rw [List.nil_append, pyWords_nil, List.nil_append, pyWords_cons, if_pos hc]
    | cons d a' =>
      have ha' : a'.length ≤ n := Nat.succ_le_succ_iff.mp ha
      rw [List.cons_append, pyWords_cons, pyWords_cons d a']
      by_cases hd : pyIsSpace d
      · rw [if_pos hd, if_pos hd, ih a' ha' c b hc]
      · have hpd : (fun x => !pyIsSpace x) d = true := by simp [hd]
        rw [if_neg hd, if_neg hd]
        have ht1 : List.takeWhile (fun x => !pyIsSpace x) (d :: (a' ++ c :: b))
            = d :: List.takeWhile (fun x => !pyIsSpace x) (a' ++ c :: b) :=
          List.takeWhile_cons_of_pos hpd
        have hd1 : List.dropWhile (fun x => !pyIsSpace x) (d :: (a' ++ c :: b))
            = List.dropWhile (fun x => !pyIsSpace x) (a' ++ c :: b) :=
          List.dropWhile_cons_of_pos hpd
        have ht2 : List.takeWhile (fun x => !pyIsSpace x) (d :: a')
            = d :: List.takeWhile (fun x => !pyIsSpace x) a' :=
          List.takeWhile_cons_of_pos hpd
        have hd2 : List.dropWhile (fun x => !pyIsSpace x) (d :: a')
            = List.dropWhile (fun x => !pyIsSpace x) a' :=
          List.dropWhile_cons_of_pos hpd
        rw [ht1, hd1, ht2, hd2]
        by_cases hE : a'.dropWhile (fun x => !pyIsSpace x) = []
        · have hall : ∀ x ∈ a', (fun x => !pyIsSpace x) x = true :=
            List.dropWhile_eq_nil_iff.mp hE
          have htw : a'.takeWhile (fun x => !pyIsSpace x) = a' :=
            List.takeWhile_eq_self_iff.mpr hall
          have htwA : List.takeWhile (fun x => !pyIsSpace x) (a' ++ c :: b) = a' := by
            rw [List.takeWhile_append, htw, if_pos rfl,
              List.takeWhile_cons_of_neg (by simp [hc]), List.append_nil]
          have hdwA : List.dropWhile (fun x => !pyIsSpace x) (a' ++ c :: b)
              = c :: b := by
            rw [List.dropWhile_append, hE]
            simp [hc]
          rw [htwA, hdwA, htw, hE, pyWords_nil, pyWords_cons, if_pos hc]
          simp
        · have hlen : (a'.takeWhile (fun x => !pyIsSpace x)).length +
              (a'.dropWhile (fun x => !pyIsSpace x)).length = a'.length := by
            rw [← List.length_append, List.takeWhile_append_dropWhile]
          have hne : ¬((a'.takeWhile (fun x => !pyIsSpace x)).length = a'.length) := by
            have : (a'.dropWhile (fun x => !pyIsSpace x)).length ≠ 0 := by
              simpa [List.length_eq_zero] using hE
            omega
          have htwB : List.takeWhile (fun x => !pyIsSpace x) (a' ++ c :: b)
              = a'.takeWhile (fun x => !pyIsSpace x) := by
            rw [List.takeWhile_append, if_neg hne]
          have hEfalse : (a'.dropWhile (fun x => !pyIsSpace x)).isEmpty = false := by
            simpa [List.isEmpty_iff] using hE
          have hdwB : List.dropWhile (fun x => !pyIsSpace x) (a' ++ c :: b)
              = a'.dropWhile (fun x => !pyIsSpace x) ++ c :: b := by
            rw [List.dropWhile_append, hEfalse]
            simp
          have hdlen : (a'.dropWhile (fun x => !pyIsSpace x)).length ≤ n :=
            le_trans (length_dropWhile_le _ _) ha'
          rw [htwB, hdwB, ih _ hdlen c b hc]
          simp

theorem pyWords_append_spaces_left {ws : List Char}
    (h : ∀ c ∈ ws, pyIsSpace c = true) (l : List Char) :
    pyWords (ws ++ l) = pyWords l := by
  induction ws with
  | nil => rfl
  | cons c ws ih =>
    rw [List.cons_append, pyWords_cons, if_pos (h c (List.mem_cons_self _ _))]
    exact ih (fun d hd => h d (List.mem_cons_of_mem _ hd))

theorem pyWords_append_spaces_right {ws : List Char}
    (h : ∀ c ∈ ws, pyIsSpace c = true) (l : List Char) :
    pyWords (l ++ ws) = pyWords l := by
  cases ws with
  | nil => rw [List.append_nil]
  | cons c ws =>
    rw [pyWords_append_space l.length l le_rfl c ws (h c (List.mem_cons_self _ _)),
      pyWords_all_space (fun d hd => h d (List.mem_cons_of_mem _ hd)),
      List.append_nil]

/-- Replacing a non-empty all-whitespace infix by anything all-whitespace
leaves the word sequence unchanged; stated as: the words of
`x ++ ws ++ y` are the words of `x` followed by the words of `y`. -/
theorem pyWords_append_spaces_mid {ws : List Char} (hne : ws ≠ [])
    (h : ∀ c ∈ ws, pyIsSpace c = true) (x y : List Char) :
    pyWords (x ++ ws ++ y) = pyWords x ++ pyWords y := by
  cases ws with
  | nil => exact absurd rfl hne
  | cons c ws =>
    rw [List.append_assoc, List.cons_append,
      pyWords_append_space x.length x le_rfl c (ws ++ y)
        (h c (List.mem_cons_self _ _)),
      pyWords_append_spaces_left (fun d hd => h d (List.mem_cons_of_mem _ hd))]

theorem pyWords_pyStrip (l : List Char) : pyWords (pyStrip l) = pyWords l := by
  have h1 : pyWords (l.dropWhile pyIsSpace) = pyWords l := by
    conv_rhs => rw [← List.takeWhile_append_dropWhile pyIsSpace l]
    exact (pyWords_append_spaces_left (fun c hc => List.mem_takeWhile_imp hc) _).symm
  have hsplit : l.dropWhile pyIsSpace
      = ((l.dropWhile pyIsSpace).reverse.dropWhile pyIsSpace).reverse
        ++ ((l.dropWhile pyIsSpace).reverse.takeWhile pyIsSpace).reverse := by
    rw [← List.reverse_append, List.takeWhile_append_dropWhile, List.reverse_reverse]
  have h2 : pyWords (((l.dropWhile pyIsSpace).reverse.dropWhile pyIsSpace).reverse)
      = pyWords (l.dropWhile pyIsSpace) := by
    conv_rhs => rw [hsplit]
    exact (pyWords_append_spaces_right
      (fun c hc => List.mem_takeWhile_imp (List.mem_reverse.mp hc)) _).symm
  unfold pyStrip
  rw [h2, h1]

theorem newline_run_spaces {l : List Char} :
    ∀ d ∈ l.takeWhile (fun d => d == '\n'), pyIsSpace d = true := by
  intro d hd
  have := List.mem_takeWhile_imp hd
  have hd' : d = '\n' := by simpa using this
  subst hd'
  rfl

theorem pyWords_collapseNLF (fuel : Nat) :
    ∀ (x l : List Char), l.length ≤ fuel →
      pyWords (x ++ collapseNLF fuel l) = pyWords (x ++ l) := by
  induction fuel with
  | zero =>
    intro x l h
    have : l = [] := List.length_eq_zero.mp (Nat.le_zero.mp h)
    subst this
    rfl
  | succ fuel ih =>
    intro x l h
    cases l with
    | nil => rfl
    | cons c cs =>
      simp only [collapseNLF]
      have hcs : cs.length ≤ fuel := Nat.succ_le_succ_iff.mp h
      by_cases hc : (c == '\n') = true
      · rw [if_pos hc]
        have htcons : List.takeWhile (fun d => d == '\n') (c :: cs)
            = c :: List.takeWhile (fun d => d == '\n') cs :=
          List.takeWhile_cons_of_pos hc
        have hdcons : List.dropWhile (fun d => d == '\n') (c :: cs)
            = List.dropWhile (fun d => d == '\n') cs :=
          List.dropWhile_cons_of_pos hc
        have hrunne : (c :: cs).takeWhile (fun d => d == '\n') ≠ [] := by
          rw [htcons]
          simp
        have hrest : ((c :: cs).dropWhile (fun d => d == '\n')).length ≤ fuel := by
          rw [hdcons]
          exact le_trans (length_dropWhile_le _ _) hcs
        have hYne : (if 3 ≤ ((c :: cs).takeWhile (fun d => d == '\n')).length
            then ['\n', '\n'] else (c :: cs).takeWhile (fun d => d == '\n')) ≠ [] := by
          split
          · simp
          · exact hrunne
        have hYsp : ∀ d ∈ (if 3 ≤ ((c :: cs).takeWhile (fun d => d == '\n')).length
            then ['\n', '\n'] else (c :: cs).takeWhile (fun d => d == '\n')),
            pyIsSpace d = true := by
          split
          · intro d hd
            rcases List.mem_cons.mp hd with rfl | hd
            · rfl
            · rcases List.mem_cons.mp hd with rfl | hd
              · rfl
              · exact absurd hd (List.not_mem_nil _)
          · exact newline_run_spaces
        rw [← List.append_assoc,
          pyWords_append_spaces_mid hYne hYsp x (collapseNLF fuel _)]
        have hin := ih [] ((c :: cs).dropWhile (fun d => d == '\n')) hrest
        rw [List.nil_append, List.nil_append] at hin
        rw [hin]
        conv_rhs => rw [show (c :: cs)
          = (c :: cs).takeWhile (fun d => d == '\n')
            ++ (c :: cs).dropWhile (fun d => d == '\n') from
          (List.takeWhile_append_dropWhile _ _).symm]
        rw [← List.append_assoc,
          pyWords_append_spaces_mid hrunne newline_run_spaces x _]
      · rw [if_neg hc]
        have h1 := ih (x ++ [c]) cs hcs
        rw [List.append_assoc, List.append_assoc, List.singleton_append] at h1
        exact h1

theorem pyWords_collapseNL (l : List Char) :
    pyWords (collapseNL l) = pyWords l := by
  have := pyWordsF_irrel 0 [] 0 (by simp) (by simp)
  have h := pyWords_collapseNLF l.length [] l le_rfl
  rw [List.nil_append, List.nil_append] at h
  exact h

theorem splitParasF_words (fuel : Nat) :
    ∀ (acc l : List Char), l.length ≤ fuel →
      ((splitParasF fuel acc l).map pyWords).flatten = pyWords (acc.reverse ++ l) := by
  induction fuel with
  | zero =>
    intro acc l h
    have : l = [] := List.length_eq_zero.mp (Nat.le_zero.mp h)
    subst this
    simp [splitParasF]
  | succ fuel ih =>
    intro acc l h
    cases l with
    | nil => simp [splitParasF]
    | cons c cs =>
      simp only [splitParasF]
      have hcs : cs.length ≤ fuel := Nat.succ_le_succ_iff.mp h
      by_cases hcut : (c == '\n' && headSat (fun d => d == '\n') cs) = true
      · rw [if_pos hcut]
        have hc : (c == '\n') = true := by
          have h' := hcut
          simp only [Bool.and_eq_true] at h'
          exact h'.1
        have htcons : List.takeWhile (fun d => d == '\n') (c :: cs)
            = c :: List.takeWhile (fun d => d == '\n') cs :=
          List.takeWhile_cons_of_pos hc
        have hdcons : List.dropWhile (fun d => d == '\n') (c :: cs)
            = List.dropWhile (fun d => d == '\n') cs :=
          List.dropWhile_cons_of_pos hc
        have hrunne : (c :: cs).takeWhile (fun d => d == '\n') ≠ [] := by
          rw [htcons]
          simp
        have hrest : ((c :: cs).dropWhile (fun d => d == '\n')).length ≤ fuel := by
          rw [hdcons]
          exact le_trans (length_dropWhile_le _ _) hcs
        simp only [List.map_cons, List.flatten_cons]
        have hin := ih [] ((c :: cs).dropWhile (fun d => d == '\n')) hrest
        rw [List.reverse_nil, List.nil_append] at hin
        rw [hin]
        conv_rhs => rw [show (c :: cs)
          = (c :: cs).takeWhile (fun d => d == '\n')
            ++ (c :: cs).dropWhile (fun d => d == '\n') from
          (List.takeWhile_append_dropWhile _ _).symm]
        rw [← List.append_assoc,
          pyWords_append_spaces_mid hrunne newline_run_spaces _ _]
      · rw [if_neg hcut]
        rw [ih (c :: acc) cs hcs, List.reverse_cons, List.append_assoc,
          List.singleton_append]

theorem splitParas_words (l : List Char) :
    ((splitParas l).map pyWords).flatten = pyWords l := by
  have h := splitParasF_words l.length [] l le_rfl
  rw [List.reverse_nil, List.nil_append] at h
  exact h

theorem ws_run_spaces {l : List Char} :
    ∀ d ∈ l.takeWhile pyIsSpace, pyIsSpace d = true :=
  fun _ hd => List.mem_takeWhile_imp hd

theorem splitSentencesF_words (fuel : Nat) :
    ∀ (acc l : List Char), l.length ≤ fuel →
      ((splitSentencesF fuel acc l).map pyWords).flatten = pyWords (acc.reverse ++ l) := by
  induction fuel with
  | zero =>
    intro acc l h
    have : l = [] := List.length_eq_zero.mp (Nat.le_zero.mp h)
    subst this
    simp [splitSentencesF]
  | succ fuel ih =>
    intro acc l h
    cases l with
    | nil => simp [splitSentencesF]
    | cons c cs =>
      simp only [splitSentencesF]
      have hcs : cs.length ≤ fuel := Nat.succ_le_succ_iff.mp h
      by_cases hcut : (isSentP c && headSat pyIsSpace cs) = true
      · rw [if_pos hcut]
        have hhead : headSat pyIsSpace cs = true := by
          have h' := hcut
          simp only [Bool.and_eq_true] at h'
          exact h'.2
        have hrunne : cs.takeWhile pyIsSpace ≠ [] := by
          cases cs with
          | nil => simp [headSat] at hhead
          | cons d cs' =>
            rw [List.takeWhile_cons_of_pos (by simpa [headSat] using hhead)]
            simp
        have hrest : (cs.dropWhile pyIsSpace).length ≤ fuel :=
          le_trans (length_dropWhile_le _ _) hcs
        simp only [List.map_cons, List.flatten_cons]
        have hin := ih [] (cs.dropWhile pyIsSpace) hrest
        rw [List.reverse_nil, List.nil_append] at hin
        rw [hin]
        conv_rhs => rw [show cs
          = cs.takeWhile pyIsSpace ++ cs.dropWhile pyIsSpace from
          (List.takeWhile_append_dropWhile _ _).symm]
        rw [show acc.reverse ++ c :: (cs.takeWhile pyIsSpace ++ cs.dropWhile pyIsSpace)
          = (acc.reverse ++ [c]) ++ cs.takeWhile pyIsSpace ++ cs.dropWhile pyIsSpace by
            simp]
        rw [pyWords_append_spaces_mid hrunne ws_run_spaces _ _,
          List.reverse_cons]
      · rw [if_neg hcut]
        rw [ih (c :: acc) cs hcs, List.reverse_cons, List.append_assoc,
          List.singleton_append]

theorem splitSentences_words (l : List Char) :
    ((splitSentences l).map pyWords).flatten = pyWords l := by
  have h := splitSentencesF_words l.length [] l le_rfl
  rw [List.reverse_nil, List.nil_append] at h
  exact h

theorem chunkParagraphs_words (t : List Char) :
    ((chunkParagraphs t).map pyWords).flatten = pyWords t := by
  unfold chunkParagraphs
  have hps : ∀ (ps : List (List Char)),
      (((ps.map pyStrip).filter (fun p => !p.isEmpty)).map pyWords).flatten
        = (ps.map pyWords).flatten := by
    intro ps
    induction ps with
    | nil => rfl
    | cons p ps ih =>
      by_cases hp : pyStrip p = []
      · have hw : pyWords p = [] := by
          rw [← pyWords_pyStrip, hp, pyWords_nil]
        simp only [List.map_cons, List.filter_cons, hp]
        simp only [List.isEmpty_nil, Bool.not_true, Bool.false_eq_true, if_false]
        rw [ih]
        simp [hw]
      · have hemp : (!(pyStrip p).isEmpty) = true := by
          simp [List.isEmpty_iff, hp]
        simp only [List.map_cons, List.filter_cons, hemp, if_true]
        simp only [List.map_cons, List.flatten_cons]
        rw [ih, pyWords_pyStrip]
  rw [hps, splitParas_words, pyWords_collapseNL, pyWords_pyStrip]

theorem chunkPieces_flatten (t : List Char) (M : Nat) :
    (chunkPieces t M).flatten = pyWords t := by
  unfold chunkPieces
  have hgen : ∀ (ps : List (List Char)),
      ((ps.flatMap (fun para => if M < (pyWords para).length
        then (splitSentences para).map pyWords else [pyWords para])).flatten)
        = (ps.map pyWords).flatten := by
    intro ps
    induction ps with
    | nil => rfl
    | cons p ps ih =>
      simp only [List.flatMap_cons, List.flatten_append, List.map_cons,
        List.flatten_cons, ih]
      congr 1
      by_cases hL : M < (pyWords p).length
      · rw [if_pos hL]
        exact splitSentences_words p
      · rw [if_neg hL]
        simp
  rw [hgen, chunkParagraphs_words]

theorem pyWords_wf (n : Nat) :
    ∀ l : List Char, l.length ≤ n → ∀ w ∈ pyWords l, wfWord w := by
  induction n with
  | zero =>
    intro l h w hw
    have : l = [] := List.length_eq_zero.mp (Nat.le_zero.mp h)
    subst this
    exact absurd hw (List.not_mem_nil _)
  | succ n ih =>
    intro l h w hw
    cases l with
    | nil => exact absurd hw (List.not_mem_nil _)
    | cons c cs =>
      have hcs : cs.length ≤ n := Nat.succ_le_succ_iff.mp h
      rw [pyWords_cons] at hw
      by_cases hc : pyIsSpace c
      · rw [if_pos hc] at hw
        exact ih cs hcs w hw
      · rw [if_neg hc] at hw
        rcases List.mem_cons.mp hw with rfl | hw
        · constructor
          · rw [List.takeWhile_cons_of_pos (by simp [hc])]
            simp
          · intro x hx
            have := List.mem_takeWhile_imp hx
            simpa using this
        · have hdl : ((c :: cs).dropWhile (fun d => !pyIsSpace d)).length ≤ n := by
            rw [List.dropWhile_cons_of_pos (by simp [hc])]
            exact le_trans (length_dropWhile_le _ _) hcs
          exact ih _ hdl w hw

theorem pyWords_wf' {l : List Char} : ∀ w ∈ pyWords l, wfWord w :=
  pyWords_wf l.length l le_rfl

theorem joinWords_cons₂ {w : Word} {ws : List Word} (h : ws ≠ []) :
    joinWords (w :: ws) = w ++ ' ' :: joinWords ws := by
  cases ws with
  | nil => exact absurd rfl h
  | cons w2 ws2 => rfl

theorem pyWords_single_wf {w : Word} (h : wfWord w) : pyWords w = [w] := by
  obtain ⟨hne, hch⟩ := h
  cases w with
  | nil => exact absurd rfl hne
  | cons c w' =>
    rw [pyWords_cons, if_neg (by simp [hch c (List.mem_cons_self _ _)])]
    have htw : (c :: w').takeWhile (fun d => !pyIsSpace d) = c :: w' :=
      List.takeWhile_eq_self_iff.mpr (fun x hx => by simp [hch x hx])
    have hdw : (c :: w').dropWhile (fun d => !pyIsSpace d) = [] :=
      List.dropWhile_eq_nil_iff.mpr (fun x hx => by simp [hch x hx])
    rw [htw, hdw, pyWords_nil]

theorem pyWords_joinWords :
    ∀ ws : List Word, (∀ w ∈ ws, wfWord w) → pyWords (joinWords ws) = ws := by
  intro ws
  induction ws with
  | nil => intro _; rfl
  | cons w ws ih =>
    intro h
    cases ws with
    | nil => exact pyWords_single_wf (h w (List.mem_cons_self _ _))
    | cons w2 ws2 =>
      rw [joinWords_cons₂ (by simp)]
      rw [pyWords_append_space w.length w le_rfl ' ' _ rfl]
      rw [pyWords_single_wf (h w (List.mem_cons_self _ _)),
        ih (fun x hx => h x (List.mem_cons_of_mem _ hx))]
      rfl

/-! ### Accumulation-loop lemmas for the chunker -/

theorem overlapSlice_length (O : Nat) (cur : List Word) :
    (overlapSlice O cur).length = seedLen O cur.length := by
  unfold overlapSlice seedLen
  by_cases hlt : O < cur.length
  · rw [if_pos hlt]
    by_cases hO : O = 0
    · rw [if_pos hO, if_pos hO]
    · rw [if_neg hO, if_neg hO, List.length_drop]
      omega
  · rw [if_neg hlt]
    by_cases hO : O = 0
    · rw [if_pos hO]
    · rw [if_neg hO]
      omega

theorem overlapSlice_subset (O : Nat) (cur : List Word) :
    ∀ w ∈ overlapSlice O cur, w ∈ cur := by
  intro w hw
  unfold overlapSlice at hw
  split at hw
  · split at hw
    · exact hw
    · exact List.drop_subset _ _ hw
  · exact hw

theorem seedLen_zero (O : Nat) : seedLen O 0 = 0 := by
  unfold seedLen
  split <;> omega

theorem seedLen_pos {O n : Nat} (h : 1 ≤ n) : 1 ≤ seedLen O n := by
  unfold seedLen
  split
  · omega
  · next hO => omega

theorem seedLen_le {O n : Nat} (hO : 1 ≤ O) : seedLen O n ≤ O := by
  unfold seedLen
  split
  · omega
  · exact min_le_left _ _

theorem dropSeedsAux_append (O : Nat) :
    ∀ (cks : List (List Word)) (prev ck : List Word),
      dropSeedsAux O prev (cks ++ [ck])
        = dropSeedsAux O prev cks
          ++ [ck.drop (seedLen O (cks.getLastD prev).length)] := by
  intro cks
  induction cks with
  | nil => intro prev ck; rfl
  | cons c cks ih =>
    intro prev ck
    simp only [List.cons_append, dropSeedsAux, List.append_eq]
    rw [ih c ck, List.getLastD_cons]

theorem dropSeedsW_append (O : Nat) (cks : List (List Word)) (ck : List Word)
    (h : cks ≠ []) :
    dropSeedsW O (cks ++ [ck])
      = dropSeedsW O cks ++ [ck.drop (seedLen O (cks.getLastD []).length)] := by
  cases cks with
  | nil => exact absurd rfl h
  | cons c0 rest =>
    simp only [List.cons_append, dropSeedsW]
    rw [dropSeedsAux_append, List.getLastD_cons]

theorem stepW_invariants (M O : Nat) (p : List Word) (cs : List (List Word))
    (cur : List Word) (hne : ∀ ck ∈ cs, ck ≠ [])
    (hseed : cs ≠ [] → seedLen O (cs.getLastD []).length ≤ cur.length) :
    (∀ ck ∈ (chunkStepW M O (cs, cur) p).1, ck ≠ [])
    ∧ ((chunkStepW M O (cs, cur) p).1 ≠ [] →
        seedLen O ((chunkStepW M O (cs, cur) p).1.getLastD []).length
          ≤ (chunkStepW M O (cs, cur) p).2.length)
    ∧ reconW O (chunkStepW M O (cs, cur) p).1 (chunkStepW M O (cs, cur) p).2
        = reconW O cs cur ++ p := by
  unfold chunkStepW
  by_cases hflush : M < cur.length + p.length
  · rw [if_pos hflush]
    dsimp only
    by_cases hcur : cur = []
    · have hcs : cs = [] := by
        by_contra hcs
        have h1 : 1 ≤ (cs.getLastD []).length := by
          have hlast : cs.getLastD [] ∈ cs := by
            cases cs with
            | nil => exact absurd rfl hcs
            | cons a l =>
              rw [List.getLastD_cons]
              exact List.getLastD_mem_cons _ _
          have := hne _ hlast
          cases hl : cs.getLastD [] with
          | nil => exact absurd hl this
          | cons _ _ => simp [hl]
        have h2 := hseed hcs
        rw [hcur] at h2
        simp only [List.length_nil] at h2
        have h3 := @seedLen_pos O (cs.getLastD []).length h1
        omega
      subst hcs
      subst hcur
      simp only [if_pos rfl]
      refine ⟨by simp, by simp, ?_⟩
      unfold reconW
      simp [dropSeedsW, dropSeedsAux, seedLen_zero, overlapSlice]
    · rw [if_neg hcur]
      have hlast : (cs ++ [cur]).getLastD [] = cur := List.getLastD_concat _ _ _
      refine ⟨?_, ?_, ?_⟩
      · intro ck hck
        rcases List.mem_append.mp hck with hck | hck
        · exact hne ck hck
        · rw [List.mem_singleton.mp hck]
          exact hcur
      · intro _
        rw [hlast, List.length_append, overlapSlice_length]
        omega
      · unfold reconW
        rw [hlast]
        have hdrop : (overlapSlice O cur ++ p).drop (seedLen O cur.length) = p := by
          rw [← overlapSlice_length O cur]
          exact List.drop_left _ _
        rw [hdrop]
        by_cases hcs : cs = []
        · subst hcs
          simp [dropSeedsW, dropSeedsAux, seedLen_zero]
        · rw [dropSeedsW_append O cs cur hcs, List.flatten_append]
          simp [List.append_assoc]
  · rw [if_neg hflush]
    dsimp only
    refine ⟨hne, ?_, ?_⟩
    · intro hcs
      rw [List.length_append]
      exact le_trans (hseed hcs) (Nat.le_add_right _ _)
    · unfold reconW
      by_cases hcs : cs = []

      · subst hcs
        simp [dropSeedsW, seedLen_zero]
      · rw [List.drop_append_of_le_length (hseed hcs)]
        simp [List.append_assoc]

theorem foldl_stepW_invariants (M O : Nat) (pieces : List (List Word)) :
    ∀ (cs : List (List Word)) (cur : List Word),
      (∀ ck ∈ cs, ck ≠ []) →
      (cs ≠ [] → seedLen O (cs.getLastD []).length ≤ cur.length) →
      (∀ ck ∈ (pieces.foldl (chunkStepW M O) (cs, cur)).1, ck ≠ [])
      ∧ ((pieces.foldl (chunkStepW M O) (cs, cur)).1 ≠ [] →
          seedLen O (((pieces.foldl (chunkStepW M O) (cs, cur)).1.getLastD []).length)
            ≤ (pieces.foldl (chunkStepW M O) (cs, cur)).2.length)
      ∧ reconW O (pieces.foldl (chunkStepW M O) (cs, cur)).1
          (pieces.foldl (chunkStepW M O) (cs, cur)).2
          = reconW O cs cur ++ pieces.flatten := by
  induction pieces with
  | nil =>
    intro cs cur h1 h2
    exact ⟨h1, h2, by simp⟩
  | cons p ps ih =>
    intro cs cur h1 h2
    simp only [List.foldl_cons]
    obtain ⟨j1, j2, j3⟩ := stepW_invariants M O p cs cur h1 h2
    obtain ⟨k1, k2, k3⟩ := ih (chunkStepW M O (cs, cur) p).1
      (chunkStepW M O (cs, cur) p).2 j1 j2
    refine ⟨k1, k2, ?_⟩
    rw [k3, j3, List.flatten_cons, List.append_assoc]

theorem chunkFold_eq (M O : Nat) (paras : List (List Char)) :
    ∀ (init : List (List Char) × List Word),
      paras.foldl (fun st para =>
        if M < (pyWords para).length then
          (splitSentences para).foldl (fun st' s => chunkStep M O st' (pyWords s)) st
        else chunkStep M O st (pyWords para)) init
      = (paras.flatMap (fun para => if M < (pyWords para).length
          then (splitSentences para).map pyWords else [pyWords para])).foldl
            (chunkStep M O) init := by
  induction paras with
  | nil => intro init; rfl
  | cons para ps ih =>
    intro init
    simp only [List.foldl_cons, List.flatMap_cons, List.foldl_append]
    rw [ih]
    congr 1
    by_cases hL : M < (pyWords para).length
    · rw [if_pos hL, if_pos hL, List.foldl_map]
    · rw [if_neg hL, if_neg hL]
      rfl

theorem chunkStep_joinWords (M O : Nat) (cs : List (List Word)) (cur p : List Word) :
    chunkStep M O (cs.map joinWords, cur) p
      = ((chunkStepW M O (cs, cur) p).1.map joinWords,
          (chunkStepW M O (cs, cur) p).2) := by
  unfold chunkStep chunkStepW
  dsimp only
  by_cases h : M < cur.length + p.length
  · rw [if_pos h, if_pos h]
    dsimp only
    by_cases hc : cur = []
    · rw [if_pos hc, if_pos hc]
    · rw [if_neg hc, if_neg hc, List.map_append, List.map_cons, List.map_nil]
  · rw [if_neg h, if_neg h]

theorem foldl_chunkStep_joinWords (M O : Nat) (pieces : List (List Word)) :
    ∀ (cs : List (List Word)) (cur : List Word),
      pieces.foldl (chunkStep M O) (cs.map joinWords, cur)
        = ((pieces.foldl (chunkStepW M O) (cs, cur)).1.map joinWords,
            (pieces.foldl (chunkStepW M O) (cs, cur)).2) := by
  induction pieces with
  | nil => intro cs cur; rfl
  | cons p ps ih =>
    intro cs cur
    simp only [List.foldl_cons]
    rw [chunkStep_joinWords]
    exact ih _ _

theorem semanticChunkText_eq_chunksW (t : List Char) (M O : Nat) :
    semanticChunkText t M O =
      if chunksW t M O = [] then [collapseNL (pyStrip t)]
      else (chunksW t M O).map joinWords := by
  simp only [semanticChunkText, chunksW]
  rw [chunkFold_eq]
  have hpieces : (chunkParagraphs t).flatMap (fun para =>
      if M < (pyWords para).length then (splitSentences para).map pyWords
      else [pyWords para]) = chunkPieces t M := rfl
  rw [hpieces]
  have h := foldl_chunkStep_joinWords M O (chunkPieces t M) [] []
  rw [List.map_nil] at h
  rw [h]
  by_cases hW2 : ((chunkPieces t M).foldl (chunkStepW M O) ([], [])).2 = [] <;>
    by_cases hW1 : ((chunkPieces t M).foldl (chunkStepW M O) ([], [])).1 = [] <;>
      simp [hW2, hW1, List.map_eq_nil_iff, List.map_append]

theorem chunkPieces_wf (t : List Char) (M : Nat) :
    ∀ p ∈ chunkPieces t M, ∀ w ∈ p, wfWord w := by
  intro p hp
  unfold chunkPieces at hp
  rw [List.mem_flatMap] at hp
  obtain ⟨para, _, hpf⟩ := hp
  by_cases hL : M < (pyWords para).length
  · rw [if_pos hL] at hpf
    obtain ⟨s, _, rfl⟩ := List.mem_map.mp hpf
    exact fun w hw => pyWords_wf' w hw
  · rw [if_neg hL] at hpf
    rw [List.mem_singleton.mp hpf]
    exact fun w hw => pyWords_wf' w hw

theorem foldl_stepW_wf (M O : Nat) (pieces : List (List Word)) :
    ∀ (cs : List (List Word)) (cur : List Word),
      (∀ p ∈ pieces, ∀ w ∈ p, wfWord w) →
      (∀ ck ∈ cs, ∀ w ∈ ck, wfWord w) → (∀ w ∈ cur, wfWord w) →
      (∀ ck ∈ (pieces.foldl (chunkStepW M O) (cs, cur)).1, ∀ w ∈ ck, wfWord w)
      ∧ (∀ w ∈ (pieces.foldl (chunkStepW M O) (cs, cur)).2, wfWord w) := by
  induction pieces with
  | nil =>
    intro cs cur _ h1 h2
    exact ⟨h1, h2⟩
  | cons p ps ih =>
    intro cs cur hp h1 h2
    simp only [List.foldl_cons]
    have hpw : ∀ w ∈ p, wfWord w := hp p (List.mem_cons_self _ _)
    have hstep1 : ∀ ck ∈ (chunkStepW M O (cs, cur) p).1, ∀ w ∈ ck, wfWord w := by
      unfold chunkStepW
      split
      · dsimp only
        split
        · exact h1
        · intro ck hck
          rcases List.mem_append.mp hck with hck | hck
          · exact h1 ck hck
          · rw [List.mem_singleton.mp hck]
            exact h2
      · exact h1
    have hstep2 : ∀ w ∈ (chunkStepW M O (cs, cur) p).2, wfWord w := by
      unfold chunkStepW
      split
      · dsimp only
        intro w hw
        rcases List.mem_append.mp hw with hw | hw
        · exact h2 w (overlapSlice_subset O cur w hw)
        · exact hpw w hw
      · dsimp only
        intro w hw
        rcases List.mem_append.mp hw with hw | hw
        · exact h2 w hw
        · exact hpw w hw
    exact ih _ _ (fun q hq => hp q (List.mem_cons_of_mem _ hq)) hstep1 hstep2

theorem foldl_stepW_bound (M O : Nat) (hO : 1 ≤ O) (B : Nat) (hMB : M ≤ B)
    (pieces : List (List Word)) :
    ∀ (cs : List (List Word)) (cur : List Word),
      (∀ p ∈ pieces, O + p.length ≤ B) →
      (∀ ck ∈ cs, ck.length ≤ B) → cur.length ≤ B →
      (∀ ck ∈ (pieces.foldl (chunkStepW M O) (cs, cur)).1, ck.length ≤ B)
      ∧ (pieces.foldl (chunkStepW M O) (cs, cur)).2.length ≤ B := by
  induction pieces with
  | nil =>
    intro cs cur _ h1 h2
    exact ⟨h1, h2⟩
  | cons p ps ih =>
    intro cs cur hp h1 h2
    simp only [List.foldl_cons]
    have hpB : O + p.length ≤ B := hp p (List.mem_cons_self _ _)
    have hstep1 : ∀ ck ∈ (chunkStepW M O (cs, cur) p).1, ck.length ≤ B := by
      unfold chunkStepW
      split
      · dsimp only
        split
        · exact h1
        · intro ck hck
          rcases List.mem_append.mp hck with hck | hck
          · exact h1 ck hck
          · rw [List.mem_singleton.mp hck]
            exact h2
      · exact h1
    have hstep2 : (chunkStepW M O (cs, cur) p).2.length ≤ B := by
      unfold chunkStepW
      dsimp only
      by_cases hf : M < cur.length + p.length
      · rw [if_pos hf]
        dsimp only
        rw [List.length_append, overlapSlice_length]
        have := @seedLen_le O cur.length hO
        omega
      · rw [if_neg hf]
        dsimp only
        rw [List.length_append]
        omega
    exact ih _ _ (fun q hq => hp q (List.mem_cons_of_mem _ hq)) hstep1 hstep2

theorem le_foldr_max (l : List Nat) (x : Nat) (hx : x ∈ l) :
    x ≤ l.foldr max 0 := by
  induction l with
  | nil => exact absurd hx (List.not_mem_nil _)
  | cons a l ih =>
    rcases List.mem_cons.mp hx with rfl | hx'
    · exact le_max_left _ _
    · exact le_trans (ih hx') (le_max_right _ _)

theorem piece_len_le (t : List Char) (M : Nat) :
    ∀ p ∈ chunkPieces t M, p.length ≤ maxPieceLen t M := by
  intro p hp
  exact le_foldr_max _ _ (List.mem_map_of_mem List.length hp)

theorem chunksW_wf (t : List Char) (M O : Nat) :
    ∀ ws ∈ chunksW t M O, ∀ w ∈ ws, wfWord w := by
  intro ws hws
  have h := foldl_stepW_wf M O (chunkPieces t M) [] []
    (chunkPieces_wf t M) (by simp) (by simp)
  unfold chunksW at hws
  by_cases hW2 : ((chunkPieces t M).foldl (chunkStepW M O) ([], [])).2 = []
  · rw [if_pos hW2] at hws
    exact h.1 ws hws
  · rw [if_neg hW2] at hws
    rcases List.mem_append.mp hws with hws | hws
    · exact h.1 ws hws
    · rw [List.mem_singleton.mp hws]
      exact h.2

theorem chunksW_flatten_dropSeeds (t : List Char) (M O : Nat) :
    (dropSeedsW O (chunksW t M O)).flatten = pyWords t := by
  have h := foldl_stepW_invariants M O (chunkPieces t M) [] []
    (by simp) (by simp)
  have hrecon := h.2.2
  have hinit : reconW O ([] : List (List Word)) [] = [] := by
    simp [reconW, dropSeedsW, dropSeedsAux, seedLen_zero]
  rw [hinit, List.nil_append, chunkPieces_flatten] at hrecon
  unfold chunksW
  by_cases hW2 : ((chunkPieces t M).foldl (chunkStepW M O) ([], [])).2 = []
  · rw [if_pos hW2]
    unfold reconW at hrecon
    rw [hW2] at hrecon
    simpa using hrecon
  · rw [if_neg hW2]
    by_cases hW1 : ((chunkPieces t M).foldl (chunkStepW M O) ([], [])).1 = []
    · rw [hW1, List.nil_append]
      unfold reconW at hrecon
      rw [hW1] at hrecon
      simp only [dropSeedsW, List.flatten_nil, List.nil_append, List.getLastD_nil] at hrecon
      rw [List.length_nil, seedLen_zero, List.drop_zero] at hrecon
      simp [dropSeedsW, dropSeedsAux, hrecon]
    · rw [dropSeedsW_append O _ _ hW1, List.flatten_append]
      unfold reconW at hrecon
      simpa using hrecon

/-! ### Chunker claims C4, C5, C9, C10 -/

/-- Claim C5: for every input text and every `max_words`/`overlap_words`,
concatenating the chunks of `semantic_chunk_text` after removing each
chunk's leading overlap — the words `_flush` carried over from the previous
chunk, i.e. its last `min(overlap_words, len)` words (all of them when
`overlap_words = 0`, Python `[-0:]`) — reproduces the whitespace-normalised
word sequence of the original text, in order.  (Proved for all `M`, `O`,
hence in particular whenever `M > O` as the claim assumes.) -/
theorem chunk_coverage (t : List Char) (M O : Nat) :
    (dropSeedsW O ((semanticChunkText t M O).map pyWords)).flatten
      = pyWords t := by
  rw [semanticChunkText_eq_chunksW]
  by_cases hF : chunksW t M O = []
  · rw [if_pos hF]
    simp only [List.map_cons, List.map_nil, dropSeedsW, dropSeedsAux,
      List.flatten_cons, List.flatten_nil, List.append_nil]
    rw [pyWords_collapseNL, pyWords_pyStrip]
  · rw [if_neg hF]
    have hmap : ((chunksW t M O).map joinWords).map pyWords = chunksW t M O := by
      rw [List.map_map]
      have : ∀ ws ∈ chunksW t M O, (pyWords ∘ joinWords) ws = id ws := by
        intro ws hws
        exact pyWords_joinWords ws (chunksW_wf t M O ws hws)
      rw [List.map_congr_left this, List.map_id]
    rw [hmap]
    exact chunksW_flatten_dropSeeds t M O

/-- Counterexample to claim C4 as stated: with `max_words = 2 > 1 =
overlap_words ≥ 0`, the run-on paragraph `"a b c"` (no sentence
punctuation) is returned as a single chunk of 3 > 2 words — the source
never force-splits a sentence at a word boundary. -/
theorem chunk_bound_counterexample :
    (2 : Nat) > 1 ∧
    semanticChunkText "a b c".toList 2 1 = ["a b c".toList] ∧
    (pyWords "a b c".toList).length = 3 ∧ ¬((3 : Nat) ≤ 2) :=
  ⟨by decide, by decide, by decide, by decide⟩

/-- Claim C4 (amended): for `overlap_words ≥ 1`, every chunk produced by
`semantic_chunk_text(text, M, O)` has at most `max M (O + L)` words, where
`L` is the largest word count of a single piece (a paragraph of at most `M`
words, or one sentence of an over-long paragraph); a chunk may therefore
exceed `M` exactly when an overlap plus a piece does.  (For `O = 0` the
Python `[-0:]` slice carries the whole buffer over and chunk sizes are
unbounded, so no such bound exists.) -/
theorem chunk_word_bound (t : List Char) (M O : Nat) (hO : 1 ≤ O) :
    ∀ ck ∈ semanticChunkText t M O,
      (pyWords ck).length ≤ max M (O + maxPieceLen t M) := by
  intro ck hck
  rw [semanticChunkText_eq_chunksW] at hck
  by_cases hF : chunksW t M O = []
  · rw [if_pos hF] at hck
    rw [List.mem_singleton.mp hck, pyWords_collapseNL, pyWords_pyStrip]
    have h := chunksW_flatten_dropSeeds t M O
    rw [hF] at h
    simp only [dropSeedsW, List.flatten_nil] at h
    rw [← h]
    simp
  · rw [if_neg hF] at hck
    obtain ⟨ws, hws, rfl⟩ := List.mem_map.mp hck
    rw [pyWords_joinWords ws (chunksW_wf t M O ws hws)]
    have hb := foldl_stepW_bound M O hO (max M (O + maxPieceLen t M))
      (le_max_left _ _) (chunkPieces t M) [] []
      (fun p hp => le_trans (Nat.add_le_add_left (piece_len_le t M p hp) O)
        (le_max_right _ _))
      (by simp) (by simp)
    unfold chunksW at hws
    by_cases hW2 : ((chunkPieces t M).foldl (chunkStepW M O) ([], [])).2 = []
    · rw [if_pos hW2] at hws
      exact hb.1 ws hws
    · rw [if_neg hW2] at hws
      rcases List.mem_append.mp hws with hws | hws
      · exact hb.1 ws hws
      · rw [List.mem_singleton.mp hws]
        exact hb.2

/-- Witness for `chunk_word_bound` at `M = 2`, `O = 1` on a concrete text. -/
theorem chunk_word_bound_witness :
    (1 : Nat) ≤ 1 ∧
    ∀ ck ∈ semanticChunkText "a b c".toList 2 1,
      (pyWords ck).length ≤ max 2 (1 + maxPieceLen "a b c".toList 2) :=
  ⟨le_rfl, chunk_word_bound "a b c".toList 2 1 le_rfl⟩

/-- Counterexample to claim C9 as stated: the source contains no clamping
of `overlap_words` to `max_words - 1`; with `max_words = 2` the output for
`overlap_words = 10` differs from the output for
`overlap_words = max_words - 1 = 1`, so the behaviour does NOT degrade to
an effective overlap of `max_words - 1` words (the carried overlap is
`min(overlap_words, flushed-buffer length)` words instead). -/
theorem overlap_clamp_counterexample :
    semanticChunkText "a b\n\nc d\n\ne f".toList 2 10
        = ["a b".toList, "a b c d".toList, "a b c d e f".toList]
    ∧ semanticChunkText "a b\n\nc d\n\ne f".toList 2 1
        = ["a b".toList, "b c d".toList, "d e f".toList]
    ∧ semanticChunkText "a b\n\nc d\n\ne f".toList 2 10
        ≠ semanticChunkText "a b\n\nc d\n\ne f".toList 2 1 :=
  ⟨by decide, by decide, by decide⟩

/-- Claim C9 (amended): for every text and every `overlap_words ≥
max_words`, `semantic_chunk_text` does not crash and terminates (the model
is a total function evaluated at such parameters throughout this file) and
returns at least one chunk; the carried overlap is
`min(overlap_words, flushed-buffer length)` words, not `max_words - 1`
(see `overlap_clamp_counterexample`). -/
theorem chunker_total_inverted (t : List Char) (M O : Nat) (hMO : M ≤ O) :
    semanticChunkText t M O ≠ [] := by
  rw [semanticChunkText_eq_chunksW]
  by_cases hF : chunksW t M O = []
  · rw [if_pos hF]
    simp
  · rw [if_neg hF]
    simpa [List.map_eq_nil_iff] using hF

/-- Witness for `chunker_total_inverted` at `M = 3 ≤ 5 = O`. -/
theorem chunker_total_inverted_witness :
    (3 : Nat) ≤ 5 ∧ semanticChunkText "x y".toList 3 5 ≠ [] :=
  ⟨by decide, chunker_total_inverted "x y".toList 3 5 (by decide)⟩

/-- Claim C10: for every input that is empty or all whitespace,
`semantic_chunk_text` returns the single-element list holding the empty
string (the stripped input), never an empty list. -/
theorem whitespace_text_single_empty_chunk (t : List Char) (M O : Nat)
    (h : ∀ c ∈ t, pyIsSpace c = true) :
    semanticChunkText t M O = [[]] := by
  have hstrip : pyStrip t = [] := by
    unfold pyStrip
    rw [List.dropWhile_eq_nil_iff.mpr h]
    rfl
  simp only [semanticChunkText, chunkParagraphs, hstrip]
  rfl

/-- Witness for `whitespace_text_single_empty_chunk` on a concrete
whitespace-only input. -/
theorem whitespace_text_witness :
    (∀ c ∈ "  \n ".toList, pyIsSpace c = true) ∧
      semanticChunkText "  \n ".toList 7 3 = [[]] :=
  ⟨by decide, whitespace_text_single_empty_chunk "  \n ".toList 7 3 (by decide)⟩

end Genverse
